import Mathlib

/-!
Verification of the separate-chaining hash table in `src/spellChecker.cpp`.

The C++ class `HashMap` stores string keys (no values) in an array of `n`
linked lists (`table`), with a parallel array of per-bucket insertion
counters (`inserts`) and a selectable hash-code strategy (`HashCodeMethod`).

Modelling conventions:
* C++ `int` arithmetic on hash codes is modelled by unbounded `Int`
  (the spec's glossary calls hash codes "un-bounded integers"; signed
  overflow in C++ is undefined, so the mathematical integer is the defined
  fragment).  The `unsigned int` arithmetic of the cyclic hash is modelled
  exactly, with `% 4294967296` wherever the 32-bit wraparound occurs.
* `double pow(33, j)` with small non-negative integral exponents is modelled
  by exact integer exponentiation.
* Operations whose C++ execution is undefined (modulo by zero when
  `n == 0`, out-of-range array access such as `table[-1]`, allocation with
  a negative size) return `none`; defined executions return `some`.
* `std::list<string>::remove` removes every element equal to the argument,
  preserving the order of the rest: `List.filter (· ≠ key)`.
-/

namespace SpellChecker

/-- The `HCM` enum of the source: `enum HCM {poly, cyclic, simple, custom}`. -/
inductive HCM where
  | poly
  | cyclic
  | simple
  | custom
deriving DecidableEq

/-- The state of the C++ `HashMap` object: strategy, bucket count `n`,
array of chains `table`, array of per-bucket insertion counters `inserts`. -/
structure HashMap where
  HashCodeMethod : HCM
  n : Nat
  table : List (List String)
  inserts : List Int
deriving DecidableEq

/-- The state built by the constructor `HashMap::HashMap()`:
`table = NULL`, `inserts = NULL`, strategy `simple`, `n = 0`. -/
def initialMap : HashMap := ⟨HCM.simple, 0, [], []⟩

/-- `HashMap::hashCodeSimple`: `sum += key[i] - 96` over all characters. -/
def hashCodeSimple (key : String) : Int :=
  key.data.foldl (fun sum c => sum + ((c.toNat : Int) - 96)) 0

/-- The loop of `HashMap::hashCodePoly`: `sum += (key[i] - 96) * pow(33, j)`
with `j` starting at `key.length() - 1` and decremented each iteration. -/
def polyLoop : List Char → Int → Int → Int
  | [], sum, _ => sum
  | c :: cs, sum, j => polyLoop cs (sum + ((c.toNat : Int) - 96) * 33 ^ j.toNat) (j - 1)

/-- `HashMap::hashCodePoly`: polynomial accumulation in base 33. -/
def hashCodePoly (key : String) : Int :=
  polyLoop key.data 0 ((key.length : Int) - 1)

/-- `HashMap::hashCodeCyclic`: 5-bit cyclic shift over 32-bit unsigned
arithmetic, final value converted to a signed integer. -/
def hashCodeCyclic (key : String) : Int :=
  let sum : Nat := key.data.foldl
    (fun sum c => (((sum * 32) % 4294967296 ||| sum / 134217728) + c.toNat) % 4294967296) 0
  if sum < 2147483648 then (sum : Int) else (sum : Int) - 4294967296

/-- The loop of `HashMap::hashCodeCustom`: `sum += pow(key[i] - 92, j)` with
`j` starting at `key.length()` and decremented each iteration. -/
def customLoop : List Char → Int → Int → Int
  | [], sum, _ => sum
  | c :: cs, sum, j => customLoop cs (sum + ((c.toNat : Int) - 92) ^ j.toNat) (j - 1)

/-- `HashMap::hashCodeCustom`: exponential summation. -/
def hashCodeCustom (key : String) : Int :=
  customLoop key.data 0 (key.length : Int)

/-- `HashMap::hashCompress`: `(abs((7 * code) + 103) % 109345121) % n`.
When `n = 0` the final modulo is a C++ division by zero: `none`. -/
def hashCompress (s : HashMap) (code : Int) : Option Nat :=
  if s.n = 0 then none
  else some (((7 * code + 103).natAbs % 109345121) % s.n)

/-- The strategy dispatch inside `HashMap::hash` (four sequential `if`s on
the mutually exclusive enum values). -/
def hashCode (s : HashMap) (key : String) : Int :=
  match s.HashCodeMethod with
  | HCM.simple => hashCodeSimple key
  | HCM.poly => hashCodePoly key
  | HCM.cyclic => hashCodeCyclic key
  | HCM.custom => hashCodeCustom key

/-- `HashMap::hash`: `return hashCompress(code) % n;`. -/
def hash (s : HashMap) (key : String) : Option Nat :=
  (hashCompress s (hashCode s key)).map (fun c => c % s.n)

/-- `HashMap::find`: hashes the key, scans that bucket's chain with
`std::find`; returns the bucket index if the key is in the chain, `-1`
otherwise.  Out-of-range bucket access is `none`. -/
def find (s : HashMap) (key : String) : Option Int :=
  match hash s key with
  | none => none
  | some bucketIdx =>
    match s.table[bucketIdx]? with
    | none => none
    | some chain => if key ∈ chain then some (bucketIdx : Int) else some (-1)

/-- `HashMap::put`: if `find(key) == -1`, append the key to the chain at
`hash(key)` and increment that bucket's insert counter; otherwise do
nothing. -/
def put (s : HashMap) (key : String) : Option HashMap :=
  match find s key with
  | none => none
  | some bucketIdx =>
    if bucketIdx = -1 then
      match hash s key with
      | none => none
      | some h =>
        match s.table[h]?, s.inserts[h]? with
        | some chain, some ic =>
          some { s with table := s.table.set h (chain ++ [key]),
                        inserts := s.inserts.set h (ic + 1) }
        | some _, none => none
        | none, _ => none
    else some s

/-- `HashMap::erase`: `bucketIdx = find(key); if (bucketIdx) { table[bucketIdx]->remove(key); inserts[bucketIdx]--; }`.
The guard is the integer's truthiness, i.e. `bucketIdx ≠ 0`; when `find`
returned `-1` the accesses `table[-1]` and `inserts[-1]` are out of range:
`none`. -/
def erase (s : HashMap) (key : String) : Option HashMap :=
  match find s key with
  | none => none
  | some bucketIdx =>
    if bucketIdx ≠ 0 then
      if bucketIdx < 0 then none
      else
        match s.table[bucketIdx.toNat]?, s.inserts[bucketIdx.toNat]? with
        | some chain, some ic =>
          some { s with table := s.table.set bucketIdx.toNat (chain.filter (fun x => x ≠ key)),
                        inserts := s.inserts.set bucketIdx.toNat (ic - 1) }
        | some _, none => none
        | none, _ => none
    else some s

/-- `HashMap::resizeTable`: allocates `s` empty buckets and zeroed counters
(`new int[s]` with a negative size fails: `none`), sets `n = s`, then
re-inserts every key of the old table via `put`, in old-bucket-index then
intra-chain order (the concatenation order of `List.flatten`). -/
def resizeTable (s : HashMap) (m : Int) : Option HashMap :=
  if m < 0 then none
  else
    (s.table.flatten).foldlM put
      { HashCodeMethod := s.HashCodeMethod
        n := m.toNat
        table := List.replicate m.toNat []
        inserts := List.replicate m.toNat 0 }

/-- `HashMap::setHashCodeMethod`: four sequential `if`s on the name. -/
def setHashCodeMethod (s : HashMap) (m : String) : HashMap :=
  let s1 := if m = "poly" then { s with HashCodeMethod := HCM.poly } else s
  let s2 := if m = "simple" then { s1 with HashCodeMethod := HCM.simple } else s1
  let s3 := if m = "cyclic" then { s2 with HashCodeMethod := HCM.cyclic } else s2
  if m = "custom" then { s3 with HashCodeMethod := HCM.custom } else s3

/-- `HashMap::size`: returns `n`. -/
def size (s : HashMap) : Nat := s.n

/-- The aggregate values printed by `HashMap::printStats`. -/
structure Stats where
  size : Nat
  inserts : Int
  loadFactor : ℚ
  collisions : Int
  maxBucket : Int
deriving DecidableEq

/-- `HashMap::printStats`: `sumIns = accumulate(inserts, inserts + n, 0)`;
`collisions[i] = max(inserts[i] - 1, 0)` for `i < n`, summed;
load factor `sumIns / n` (real division, modelled in `ℚ`);
`max. bucket = *max_element(inserts, inserts + n)`.  Dereferencing
`max_element` of an empty range, like reading past the array, is undefined:
`none` when the counter array is empty or `n = 0`. -/
def printStats (s : HashMap) : Option Stats :=
  match s.inserts with
  | [] => none
  | x :: xs =>
    if s.n = 0 then none
    else
      some { size := s.n
             inserts := s.inserts.foldl (· + ·) 0
             loadFactor := ((s.inserts.foldl (· + ·) 0 : Int) : ℚ) / (s.n : ℚ)
             collisions :=
               (((List.range s.n).map (fun i => max (s.inserts.getD i 0 - 1) 0)).foldl (· + ·) 0)
             maxBucket := xs.foldl max x }

/-- Structural well-formedness of a table state: the two parallel arrays
have exactly `n` entries (guaranteed by the C++ allocations). -/
def WF (s : HashMap) : Prop :=
  s.table.length = s.n ∧ s.inserts.length = s.n

/-- Every key stored in a chain hashes (under the current strategy and
current `n`) to that chain's index. -/
def Placed (s : HashMap) : Prop :=
  ∀ (i : Nat) (c : List String) (k : String), s.table[i]? = some c → k ∈ c → hash s k = some i

/-- No chain contains a key twice. -/
def ChainsNodup (s : HashMap) : Prop :=
  ∀ (i : Nat) (c : List String), s.table[i]? = some c → c.Nodup

/-- The inductive invariant maintained by the operations under a fixed
strategy. -/
def Inv (s : HashMap) : Prop :=
  WF s ∧ Placed s ∧ ChainsNodup s

/-- Table states reachable from a freshly constructed object by resizes,
insertions and erasures, with the strategy never changed. -/
inductive ReachableFixed : HashMap → Prop where
  | init (m : HCM) : ReachableFixed ⟨m, 0, [], []⟩
  | rsz {s s' : HashMap} {m : Int} :
      ReachableFixed s → resizeTable s m = some s' → ReachableFixed s'
  | putStep {s s' : HashMap} {k : String} :
      ReachableFixed s → put s k = some s' → ReachableFixed s'
  | eraseStep {s s' : HashMap} {k : String} :
      ReachableFixed s → erase s k = some s' → ReachableFixed s'

/-! ### General list helpers -/

theorem foldl_add_map {α : Type} (g : α → Int) (l : List α) :
    ∀ a : Int, l.foldl (fun sum x => sum + g x) a = a + (l.map g).sum := by
  induction l with
  | nil => intro a; simp
  | cons x xs ih => intro a; simp [ih, add_assoc]

theorem foldl_add_int (l : List Int) (a : Int) : l.foldl (· + ·) a = a + l.sum := by
  have h := foldl_add_map (fun x : Int => x) l a
  simpa using h

theorem range_map_getD (g : Int → Int) (l : List Int) :
    (List.range l.length).map (fun i => g (l.getD i 0)) = l.map g := by
  induction l with
  | nil => simp
  | cons x xs ih =>
    rw [List.length_cons, List.range_succ_eq_map, List.map_cons, List.map_map,
      List.getD_cons_zero, List.map_cons]
    have h2 : List.map ((fun i => g ((x :: xs).getD i 0)) ∘ Nat.succ) (List.range xs.length)
        = List.map (fun i => g (xs.getD i 0)) (List.range xs.length) :=
      List.map_congr_left (fun i _ => by simp [List.getD_cons_succ])
    rw [h2, ih]

theorem foldl_max_spec (xs : List Int) :
    ∀ x : Int, xs.foldl max x ∈ x :: xs ∧ x ≤ xs.foldl max x ∧
      ∀ y ∈ xs, y ≤ xs.foldl max x := by
  induction xs with
  | nil => intro x; simp
  | cons y ys ih =>
    intro x
    obtain ⟨hmem, hle, hub⟩ := ih (max x y)
    simp only [List.foldl_cons]
    refine ⟨?_, ?_, ?_⟩
    · rcases List.mem_cons.mp hmem with h | h
      · rcases max_choice x y with hxy | hxy <;> rw [h, hxy] <;> simp
      · exact List.mem_cons_of_mem _ (List.mem_cons_of_mem _ h)
    · exact le_trans (le_max_left x y) hle
    · intro z hz
      rcases List.mem_cons.mp hz with rfl | h
      · exact le_trans (le_max_right x z) hle
      · exact hub z h

/-! ### Hash function basics -/

theorem hash_congr (s t : HashMap) (hm : s.HashCodeMethod = t.HashCodeMethod)
    (hn : s.n = t.n) (k : String) : hash s k = hash t k := by
  unfold hash hashCompress hashCode
  rw [hm, hn]

theorem hash_update (s : HashMap) (tb : List (List String)) (ins : List Int) (k : String) :
    hash { s with table := tb, inserts := ins } k = hash s k :=
  hash_congr _ _ rfl rfl k

theorem hashCompress_eq {s : HashMap} (hn : 0 < s.n) (c : Int) :
    hashCompress s c = some (((7 * c + 103).natAbs % 109345121) % s.n) := by
  unfold hashCompress
  rw [if_neg (Nat.pos_iff_ne_zero.mp hn)]

theorem hash_eq {s : HashMap} (hn : 0 < s.n) (k : String) :
    hash s k = some ((((7 * hashCode s k + 103).natAbs % 109345121) % s.n) % s.n) := by
  unfold hash
  rw [hashCompress_eq hn]
  rfl

theorem hash_lt {s : HashMap} {k : String} {b : Nat} (h : hash s k = some b) : b < s.n := by
  have hn : s.n ≠ 0 := by
    intro h0
    unfold hash hashCompress at h
    rw [if_pos h0] at h
    exact Option.noConfusion h
  have hpos : 0 < s.n := Nat.pos_of_ne_zero hn
  rw [hash_eq hpos] at h
  rw [← Option.some.inj h]
  exact Nat.mod_lt _ hpos

theorem hash_some {s : HashMap} (hn : 0 < s.n) (k : String) :
    ∃ b, hash s k = some b ∧ b < s.n := by
  refine ⟨_, hash_eq hn k, ?_⟩
  exact Nat.mod_lt _ hn

/-! ### Characterizations of find, put and erase -/

theorem find_eq {s : HashMap} {k : String} {b : Nat} {c : List String}
    (hb : hash s k = some b) (hc : s.table[b]? = some c) :
    find s k = if k ∈ c then some (b : Int) else some (-1) := by
  simp only [find, hb, hc]

theorem find_some_cases {s : HashMap} {k : String} {r : Int} (h : find s k = some r) :
    ∃ b c, hash s k = some b ∧ s.table[b]? = some c ∧
      ((r = (b : Int) ∧ k ∈ c) ∨ (r = -1 ∧ k ∉ c)) := by
  cases hb : hash s k with
  | none => simp only [find, hb] at h; exact Option.noConfusion h
  | some b =>
    cases hc : s.table[b]? with
    | none => simp only [find, hb, hc] at h; exact Option.noConfusion h
    | some c =>
      simp only [find, hb, hc] at h
      by_cases hk : k ∈ c
      · rw [if_pos hk] at h
        exact ⟨b, c, rfl, hc, Or.inl ⟨(Option.some.inj h).symm, hk⟩⟩
      · rw [if_neg hk] at h
        exact ⟨b, c, rfl, hc, Or.inr ⟨(Option.some.inj h).symm, hk⟩⟩

theorem put_some_cases {s : HashMap} {k : String} {s' : HashMap} (h : put s k = some s') :
    ∃ b c, hash s k = some b ∧ s.table[b]? = some c ∧
      ((k ∈ c ∧ s' = s) ∨
       (k ∉ c ∧ ∃ ic, s.inserts[b]? = some ic ∧
         s' = { s with table := s.table.set b (c ++ [k]),
                       inserts := s.inserts.set b (ic + 1) })) := by
  cases hf : find s k with
  | none => simp only [put, hf] at h; exact Option.noConfusion h
  | some r =>
    obtain ⟨b, c, hb, hc, hcase⟩ := find_some_cases hf
    rcases hcase with ⟨rfl, hk⟩ | ⟨rfl, hk⟩
    · simp only [put, hf, if_neg (by omega : ¬((b : Int) = -1))] at h
      exact ⟨b, c, hb, hc, Or.inl ⟨hk, (Option.some.inj h).symm⟩⟩
    · cases hic : s.inserts[b]? with
      | none =>
        simp only [put, hf, hb, hc, hic, if_pos, if_true] at h
        exact Option.noConfusion h
      | some ic =>
        simp only [put, hf, hb, hc, hic, if_pos, if_true] at h
        exact ⟨b, c, hb, hc, Or.inr ⟨hk, ic, hic, (Option.some.inj h).symm⟩⟩

theorem put_mem_eq {s : HashMap} {k : String} {b : Nat} {c : List String}
    (hb : hash s k = some b) (hc : s.table[b]? = some c) (hk : k ∈ c) :
    put s k = some s := by
  have hf : find s k = some (b : Int) := by rw [find_eq hb hc, if_pos hk]
  simp only [put, hf, if_neg (by omega : ¬((b : Int) = -1))]

theorem put_insert_eq {s : HashMap} {k : String} {b : Nat} {c : List String} {ic : Int}
    (hb : hash s k = some b) (hc : s.table[b]? = some c) (hk : k ∉ c)
    (hic : s.inserts[b]? = some ic) :
    put s k = some { s with table := s.table.set b (c ++ [k]),
                            inserts := s.inserts.set b (ic + 1) } := by
  have hf : find s k = some (-1) := by rw [find_eq hb hc, if_neg hk]
  simp only [put, hf, hb, hc, hic, if_pos, if_true]

theorem erase_some_cases {s : HashMap} {k : String} {s' : HashMap} (h : erase s k = some s') :
    (find s k = some 0 ∧ s' = s) ∨
    (∃ (b : Nat) (c : List String) (ic : Int), find s k = some (b : Int) ∧ (b : Int) ≠ 0 ∧
       s.table[b]? = some c ∧ s.inserts[b]? = some ic ∧
       s' = { s with table := s.table.set b (c.filter (fun x => x ≠ k)),
                     inserts := s.inserts.set b (ic - 1) }) := by
  cases hf : find s k with
  | none => simp only [erase, hf] at h; exact Option.noConfusion h
  | some r =>
    by_cases hr : r = 0
    · subst hr
      simp only [erase, hf, if_neg (by simp : ¬((0 : Int) ≠ 0))] at h
      exact Or.inl ⟨rfl, (Option.some.inj h).symm⟩
    · obtain ⟨b, c, hb, hc, hcase⟩ := find_some_cases hf
      rcases hcase with ⟨rfl, _⟩ | ⟨rfl, _⟩
      · have hbn : ((b : Int)).toNat = b := Int.toNat_natCast b
        cases hic : s.inserts[b]? with
        | none =>
          simp only [erase, hf, if_pos hr, if_neg (by omega : ¬((b : Int) < 0)),
            hbn, hc, hic] at h
          exact Option.noConfusion h
        | some ic =>
          simp only [erase, hf, if_pos hr, if_neg (by omega : ¬((b : Int) < 0)),
            hbn, hc, hic] at h
          exact Or.inr ⟨b, c, ic, rfl, by exact_mod_cast hr, hc, hic,
            (Option.some.inj h).symm⟩
      · simp only [erase, hf, if_pos hr, if_pos (by omega : (-1 : Int) < 0)] at h
        exact Option.noConfusion h

theorem put_fields {s : HashMap} {k : String} {s' : HashMap} (h : put s k = some s') :
    s'.HashCodeMethod = s.HashCodeMethod ∧ s'.n = s.n ∧
    s'.table.length = s.table.length ∧ s'.inserts.length = s.inserts.length := by
  obtain ⟨b, c, _, _, hcase⟩ := put_some_cases h
  rcases hcase with ⟨_, rfl⟩ | ⟨_, _, _, rfl⟩
  · exact ⟨rfl, rfl, rfl, rfl⟩
  · exact ⟨rfl, rfl, List.length_set .., List.length_set ..⟩

theorem erase_fields {s : HashMap} {k : String} {s' : HashMap} (h : erase s k = some s') :
    s'.HashCodeMethod = s.HashCodeMethod ∧ s'.n = s.n ∧
    s'.table.length = s.table.length ∧ s'.inserts.length = s.inserts.length := by
  rcases erase_some_cases h with ⟨_, rfl⟩ | ⟨b, c, ic, _, _, _, _, rfl⟩
  · exact ⟨rfl, rfl, rfl, rfl⟩
  · exact ⟨rfl, rfl, List.length_set .., List.length_set ..⟩

/-! ### Preservation of the fixed-strategy invariant -/

theorem put_inv {s : HashMap} {k : String} {s' : HashMap} (hInv : Inv s)
    (h : put s k = some s') : Inv s' := by
  obtain ⟨⟨hlt, hli⟩, hpl, hnd⟩ := hInv
  obtain ⟨b, c, hb, hc, hcase⟩ := put_some_cases h
  rcases hcase with ⟨hk, rfl⟩ | ⟨hk, ic, hic, rfl⟩
  · exact ⟨⟨hlt, hli⟩, hpl, hnd⟩
  · have hblen : b < s.table.length := (List.getElem?_eq_some.mp hc).1
    refine ⟨⟨by simpa [List.length_set] using hlt, by simpa [List.length_set] using hli⟩, ?_, ?_⟩
    · intro i c' k' hgi hk'
      rw [hash_update]
      by_cases hib : i = b
      · subst hib
        rw [List.getElem?_set_self hblen] at hgi
        rw [← Option.some.inj hgi] at hk'
        rcases List.mem_append.mp hk' with hm | hm
        · exact hpl i c k' hc hm
        · rw [List.mem_singleton.mp hm]
          exact hb
      · rw [List.getElem?_set_ne (fun hbi => hib hbi.symm)] at hgi
        exact hpl i c' k' hgi hk'
    · intro i c' hgi
      by_cases hib : i = b
      · subst hib
        rw [List.getElem?_set_self hblen] at hgi
        rw [← Option.some.inj hgi]
        refine List.nodup_append.mpr ⟨hnd i c hc, List.nodup_singleton k, ?_⟩
        intro a ha hbk
        rw [List.mem_singleton.mp hbk] at ha
        exact hk ha
      · rw [List.getElem?_set_ne (fun hbi => hib hbi.symm)] at hgi
        exact hnd i c' hgi

theorem erase_inv {s : HashMap} {k : String} {s' : HashMap} (hInv : Inv s)
    (h : erase s k = some s') : Inv s' := by
  rcases erase_some_cases h with ⟨_, rfl⟩ | ⟨b, c, ic, _, _, hc, hic, rfl⟩
  · exact hInv
  · obtain ⟨⟨hlt, hli⟩, hpl, hnd⟩ := hInv
    have hblen : b < s.table.length := (List.getElem?_eq_some.mp hc).1
    refine ⟨⟨by simpa [List.length_set] using hlt, by simpa [List.length_set] using hli⟩, ?_, ?_⟩
    · intro i c' k' hgi hk'
      rw [hash_update]
      by_cases hib : i = b
      · subst hib
        rw [List.getElem?_set_self hblen] at hgi
        rw [← Option.some.inj hgi] at hk'
        exact hpl i c k' hc (List.mem_of_mem_filter hk')
      · rw [List.getElem?_set_ne (fun hbi => hib hbi.symm)] at hgi
        exact hpl i c' k' hgi hk'
    · intro i c' hgi
      by_cases hib : i = b
      · subst hib
        rw [List.getElem?_set_self hblen] at hgi
        rw [← Option.some.inj hgi]
        exact List.Nodup.filter _ (hnd i c hc)
      · rw [List.getElem?_set_ne (fun hbi => hib hbi.symm)] at hgi
        exact hnd i c' hgi

theorem foldlM_put_inv {s' : HashMap} :
    ∀ (ks : List String) (b : HashMap), Inv b → List.foldlM put b ks = some s' → Inv s' := by
  intro ks
  induction ks with
  | nil =>
    intro b hInv h
    rw [List.foldlM_nil] at h
    exact (Option.some.inj h) ▸ hInv
  | cons k ks ih =>
    intro b hInv h
    rw [List.foldlM_cons] at h
    obtain ⟨b', hb', hrest⟩ := Option.bind_eq_some.mp h
    exact ih b' (put_inv hInv hb') hrest

theorem resize_inv {s s' : HashMap} {m : Int} (h : resizeTable s m = some s') : Inv s' := by
  unfold resizeTable at h
  by_cases hm : m < 0
  · rw [if_pos hm] at h
    exact Option.noConfusion h
  · rw [if_neg hm] at h
    refine foldlM_put_inv _ _ ⟨⟨by simp, by simp⟩, ?_, ?_⟩ h
    · intro i c k hgi hk
      rw [List.getElem?_replicate] at hgi
      by_cases hi : i < m.toNat
      · rw [if_pos hi] at hgi
        rw [← Option.some.inj hgi] at hk
        exact absurd hk (List.not_mem_nil k)
      · rw [if_neg hi] at hgi
        exact Option.noConfusion hgi
    · intro i c hgi
      rw [List.getElem?_replicate] at hgi
      by_cases hi : i < m.toNat
      · rw [if_pos hi] at hgi
        rw [← Option.some.inj hgi]
        exact List.nodup_nil
      · rw [if_neg hi] at hgi
        exact Option.noConfusion hgi

theorem reachableFixed_inv {s : HashMap} (h : ReachableFixed s) : Inv s := by
  induction h with
  | init m =>
    refine ⟨⟨rfl, rfl⟩, ?_, ?_⟩
    · intro i c k hgi _
      simp at hgi
    · intro i c hgi
      simp at hgi
  | rsz _ hres _ => exact resize_inv hres
  | putStep _ hput ih => exact put_inv ih hput
  | eraseStep _ herase ih => exact erase_inv ih herase

/-! ### Presence of keys through put and resize -/

theorem put_present {s : HashMap} {k : String} {s' : HashMap} (h : put s k = some s') :
    (∀ (x : String) (i : Nat) (c : List String), s.table[i]? = some c → x ∈ c → ∃ (j : Nat) (c' : List String), s'.table[j]? = some c' ∧ x ∈ c') ∧
    (∃ (j : Nat) (c' : List String), s'.table[j]? = some c' ∧ k ∈ c') := by
  obtain ⟨b, c, hb, hc, hcase⟩ := put_some_cases h
  rcases hcase with ⟨hk, rfl⟩ | ⟨hk, ic, hic, rfl⟩
  · exact ⟨fun x i c0 hgi hx => ⟨i, c0, hgi, hx⟩, b, c, hc, hk⟩
  · have hblen : b < s.table.length := (List.getElem?_eq_some.mp hc).1
    have hcb : (s.table.set b (c ++ [k]))[b]? = some (c ++ [k]) :=
      List.getElem?_set_self hblen
    constructor
    · intro x i c0 hgi hx
      by_cases hib : i = b
      · subst hib
        refine ⟨i, c ++ [k], hcb, List.mem_append_left _ ?_⟩
        rw [hgi] at hc
        exact (Option.some.inj hc) ▸ hx
      · exact ⟨i, c0, by rw [List.getElem?_set_ne (fun hbi => hib hbi.symm)]; exact hgi, hx⟩
    · exact ⟨b, c ++ [k], hcb, List.mem_append_right _ (List.mem_singleton_self k)⟩

theorem foldlM_put_present {s' : HashMap} :
    ∀ (ks : List String) (b : HashMap), List.foldlM put b ks = some s' →
    (∀ (x : String) (i : Nat) (c : List String), b.table[i]? = some c → x ∈ c → ∃ (j : Nat) (c' : List String), s'.table[j]? = some c' ∧ x ∈ c') ∧
    (∀ k ∈ ks, ∃ (j : Nat) (c' : List String), s'.table[j]? = some c' ∧ k ∈ c') := by
  intro ks
  induction ks with
  | nil =>
    intro b h
    rw [List.foldlM_nil] at h
    rw [← Option.some.inj h]
    exact ⟨fun x i c hgi hx => ⟨i, c, hgi, hx⟩, fun k hk => absurd hk (List.not_mem_nil k)⟩
  | cons k ks ih =>
    intro b h
    rw [List.foldlM_cons] at h
    obtain ⟨b', hb', hrest⟩ := Option.bind_eq_some.mp h
    obtain ⟨ihmono, ihmem⟩ := ih b' hrest
    obtain ⟨pmono, pmem⟩ := put_present hb'
    refine ⟨?_, ?_⟩
    · intro x i c hgi hx
      obtain ⟨j, c', hj, hx'⟩ := pmono x i c hgi hx
      exact ihmono x j c' hj hx'
    · intro k' hk'
      rcases List.mem_cons.mp hk' with rfl | hk'
      · obtain ⟨j, c', hj, hx'⟩ := pmem
        exact ihmono k' j c' hj hx'
      · exact ihmem k' hk'

theorem foldlM_put_fields {s' : HashMap} :
    ∀ (ks : List String) (b : HashMap), List.foldlM put b ks = some s' →
    s'.HashCodeMethod = b.HashCodeMethod ∧ s'.n = b.n := by
  intro ks
  induction ks with
  | nil =>
    intro b h
    rw [List.foldlM_nil] at h
    rw [← Option.some.inj h]
    exact ⟨rfl, rfl⟩
  | cons k ks ih =>
    intro b h
    rw [List.foldlM_cons] at h
    obtain ⟨b', hb', hrest⟩ := Option.bind_eq_some.mp h
    obtain ⟨h1, h2⟩ := ih b' hrest
    obtain ⟨p1, p2, _, _⟩ := put_fields hb'
    exact ⟨h1.trans p1, h2.trans p2⟩

/-! ### The claims -/

/-- C1: the claim says erase of an absent key is a no-op that accesses no
out-of-range bucket.  The code disagrees: with one (empty) bucket, `find "a"`
returns `-1`, the truthiness guard `if (bucketIdx)` accepts `-1`, and the
code accesses `table[-1]` and `inserts[-1]` — out of range (`none`). -/
theorem claim_C1_erase_absent_out_of_range :
    find (HashMap.mk HCM.simple 1 [[]] [0]) "a" = some (-1) ∧
    erase (HashMap.mk HCM.simple 1 [[]] [0]) "a" = none := by
  constructor
  · decide
  · decide

/-- C2: the claim says that after `put(k)`; `erase(k)`, `find(k)` reports the
key absent, including when the key's bucket index is `0`.  The code disagrees
at bucket 0: with `bucket_count = 1` the key "a" lands in bucket 0, `erase`'s
truthiness guard treats the found index 0 as "not found" and removes nothing,
and `find` still reports the key present at bucket 0. -/
theorem claim_C2_erase_bucket_zero_noop :
    resizeTable initialMap 1 = some (HashMap.mk HCM.simple 1 [[]] [0]) ∧
    put (HashMap.mk HCM.simple 1 [[]] [0]) "a" = some (HashMap.mk HCM.simple 1 [["a"]] [1]) ∧
    erase (HashMap.mk HCM.simple 1 [["a"]] [1]) "a"
      = some (HashMap.mk HCM.simple 1 [["a"]] [1]) ∧
    find (HashMap.mk HCM.simple 1 [["a"]] [1]) "a" = some 0 := by
  refine ⟨?_, ?_, ?_, ?_⟩ <;> decide

/-- C3: the claim says `resize(new_size)` with `new_size ≤ 0` is rejected and
mutates nothing.  The code has no such guard: on an empty 2-bucket table,
`resizeTable(0)` completes and replaces the state with a 0-bucket table, and
on a non-empty table `resizeTable(0)` reaches a modulo by zero while
rehashing (undefined, `none`). -/
theorem claim_C3_resize_zero_mutates :
    resizeTable (HashMap.mk HCM.simple 2 [[], []] [0, 0]) 0
      = some (HashMap.mk HCM.simple 0 [] []) ∧
    HashMap.mk HCM.simple 0 [] [] ≠ HashMap.mk HCM.simple 2 [[], []] [0, 0] ∧
    resizeTable (HashMap.mk HCM.simple 1 [["a"]] [1]) 0 = none := by
  refine ⟨?_, ?_, ?_⟩ <;> decide

/-- C4 counterexample: the claim asserts unconditionally that a key occurs in
at most one chain.  Running the program's own operations — resize to 3
buckets, `put("dog")` under the Simple strategy, switch the strategy to
Polynomial without rehashing, `put("dog")` again — leaves "dog" in bucket 0
and in bucket 2 simultaneously (total count 2). -/
theorem claim_C4_counterexample :
    resizeTable initialMap 3 = some (HashMap.mk HCM.simple 3 [[], [], []] [0, 0, 0]) ∧
    put (HashMap.mk HCM.simple 3 [[], [], []] [0, 0, 0]) "dog"
      = some (HashMap.mk HCM.simple 3 [["dog"], [], []] [1, 0, 0]) ∧
    setHashCodeMethod (HashMap.mk HCM.simple 3 [["dog"], [], []] [1, 0, 0]) "poly"
      = HashMap.mk HCM.poly 3 [["dog"], [], []] [1, 0, 0] ∧
    put (HashMap.mk HCM.poly 3 [["dog"], [], []] [1, 0, 0]) "dog"
      = some (HashMap.mk HCM.poly 3 [["dog"], [], ["dog"]] [1, 0, 1]) ∧
    ((HashMap.mk HCM.poly 3 [["dog"], [], ["dog"]] [1, 0, 1]).table.map
      (fun ch => ch.count "dog")).sum = 2 := by
  refine ⟨?_, ?_, ?_, ?_, ?_⟩ <;> decide

/-- C4 (amended): calling `put(k)` twice yields a table identical to calling
it once; and in any table reachable by resizes, puts and erases under a fixed
(never switched) strategy, a key occurs in at most one chain, at most once. -/
theorem claim_C4_put_idempotent_and_unique :
    (∀ (s s' : HashMap) (k : String), put s k = some s' → put s' k = some s') ∧
    (∀ s : HashMap, ReachableFixed s → ∀ (k : String) (i j : Nat) (ci cj : List String),
       s.table[i]? = some ci → s.table[j]? = some cj → k ∈ ci → k ∈ cj → i = j) ∧
    (∀ s : HashMap, ReachableFixed s → ∀ (k : String) (i : Nat) (ci : List String),
       s.table[i]? = some ci → ci.count k ≤ 1) := by
  refine ⟨?_, ?_, ?_⟩
  · intro s s' k h
    obtain ⟨b, c, hb, hc, hcase⟩ := put_some_cases h
    rcases hcase with ⟨hk, rfl⟩ | ⟨hk, ic, hic, rfl⟩
    · exact h
    · have hblen : b < s.table.length := (List.getElem?_eq_some.mp hc).1
      have hhash : hash { s with table := s.table.set b (c ++ [k])
                                 inserts := s.inserts.set b (ic + 1) } k = some b := by
        rw [hash_update]
        exact hb
      have hc' : ({ s with table := s.table.set b (c ++ [k])
                           inserts := s.inserts.set b (ic + 1) } : HashMap).table[b]? = some (c ++ [k]) :=
        List.getElem?_set_self hblen
      exact put_mem_eq hhash hc' (List.mem_append_right _ (List.mem_singleton_self k))
  · intro s hreach k i j ci cj hgi hgj hki hkj
    obtain ⟨_, hpl, _⟩ := reachableFixed_inv hreach
    exact Option.some.inj ((hpl i ci k hgi hki).symm.trans (hpl j cj k hgj hkj))
  · intro s hreach k i ci hgi
    obtain ⟨_, _, hnd⟩ := reachableFixed_inv hreach
    exact List.nodup_iff_count_le_one.mp (hnd i ci hgi) k

/-- C4 witness: the idempotence and the uniqueness bound instantiated on a
concrete one-bucket table holding "a". -/
theorem claim_C4_witness :
    (put (HashMap.mk HCM.simple 1 [[]] [0]) "a"
        = some (HashMap.mk HCM.simple 1 [["a"]] [1]) ∧
     put (HashMap.mk HCM.simple 1 [["a"]] [1]) "a"
        = some (HashMap.mk HCM.simple 1 [["a"]] [1])) ∧
    ReachableFixed (HashMap.mk HCM.simple 1 [["a"]] [1]) ∧
    (["a"] : List String).count "a" ≤ 1 := by
  have hput : put (HashMap.mk HCM.simple 1 [[]] [0]) "a"
      = some (HashMap.mk HCM.simple 1 [["a"]] [1]) := by decide
  have hres1 : resizeTable (HashMap.mk HCM.simple 0 [] []) 1
      = some (HashMap.mk HCM.simple 1 [[]] [0]) := by decide
  have hreach : ReachableFixed (HashMap.mk HCM.simple 1 [["a"]] [1]) :=
    ReachableFixed.putStep
      (ReachableFixed.rsz (ReachableFixed.init HCM.simple) hres1) hput
  exact ⟨⟨hput, claim_C4_put_idempotent_and_unique.1 _ _ _ hput⟩, hreach,
    claim_C4_put_idempotent_and_unique.2.2 _ hreach "a" 0 ["a"] (by decide)⟩

/-- C5: `resize(m)` with `m > 0` sets `bucket_count = m`, keeps the strategy,
keeps every previously present key present, and its result — in particular
the rebuilt `insert_counts` — depends only on the strategy and the sequence
of stored keys, not on the old counters (old counts discarded). -/
theorem claim_C5_resize_preserves_membership (s s' : HashMap) (m : Int)
    (hm : 0 < m) (hres : resizeTable s m = some s') :
    (s'.n : Int) = m ∧ s'.HashCodeMethod = s.HashCodeMethod ∧
    (∀ (k : String) (i : Nat) (c : List String), s.table[i]? = some c → k ∈ c →
       ∃ (j : Nat) (c' : List String), s'.table[j]? = some c' ∧ k ∈ c') ∧
    (∀ t : HashMap, t.HashCodeMethod = s.HashCodeMethod →
       t.table.flatten = s.table.flatten → resizeTable t m = some s') := by
  have hm' : ¬m < 0 := by omega
  have hres' : (s.table.flatten).foldlM put
      ⟨s.HashCodeMethod, m.toNat, List.replicate m.toNat [], List.replicate m.toNat 0⟩
        = some s' := by
    unfold resizeTable at hres
    rw [if_neg hm'] at hres
    exact hres
  refine ⟨?_, ?_, ?_, ?_⟩
  · have h2 : s'.n = m.toNat := (foldlM_put_fields _ _ hres').2
    rw [h2]
    exact Int.toNat_of_nonneg (by omega)
  · exact (foldlM_put_fields _ _ hres').1
  · intro k i c hgi hk
    have hkfl : k ∈ s.table.flatten := List.mem_flatten.mpr ⟨c, List.getElem?_mem hgi, hk⟩
    exact (foldlM_put_present _ _ hres').2 k hkfl
  · intro t hts htf
    unfold resizeTable
    rw [if_neg hm', hts, htf]
    exact hres'

/-- C5 witness: resizing a one-bucket table holding "a" to two buckets. -/
theorem claim_C5_witness :
    (0 : Int) < 2 ∧
    resizeTable (HashMap.mk HCM.simple 1 [["a"]] [1]) 2
      = some (HashMap.mk HCM.simple 2 [["a"], []] [1, 0]) ∧
    ((HashMap.mk HCM.simple 2 [["a"], []] [1, 0]).n : Int) = 2 := by
  have hres : resizeTable (HashMap.mk HCM.simple 1 [["a"]] [1]) 2
      = some (HashMap.mk HCM.simple 2 [["a"], []] [1, 0]) := by decide
  exact ⟨by decide, hres,
    (claim_C5_resize_preserves_membership _ _ 2 (by decide) hres).1⟩

/-- C6: for every integer hash code (negative ones included) and bucket count
`n > 0`, the compression function returns `(|7c + 103| mod 109345121) mod n`,
an index in `[0, n)`; consequently `hash` only produces valid bucket
indices. -/
theorem claim_C6_compress_range (s : HashMap) (c : Int) (hn : 0 < s.n) :
    hashCompress s c = some (((7 * c + 103).natAbs % 109345121) % s.n) ∧
    ((7 * c + 103).natAbs % 109345121) % s.n < s.n ∧
    (∀ (key : String) (b : Nat), hash s key = some b → b < s.n) :=
  ⟨hashCompress_eq hn c, Nat.mod_lt _ hn, fun _ _ hb => hash_lt hb⟩

/-- C6 witness: compressing the negative code `-24` with 7 buckets gives
bucket 2. -/
theorem claim_C6_witness :
    0 < (HashMap.mk HCM.simple 7 [] []).n ∧
    hashCompress (HashMap.mk HCM.simple 7 [] []) (-24)
      = some (((7 * (-24) + 103).natAbs % 109345121) % (HashMap.mk HCM.simple 7 [] []).n) ∧
    ((7 * (-24) + 103).natAbs % 109345121) % (HashMap.mk HCM.simple 7 [] []).n
      < (HashMap.mk HCM.simple 7 [] []).n ∧
    hashCompress (HashMap.mk HCM.simple 7 [] []) (-24) = some 2 :=
  ⟨by decide, (claim_C6_compress_range _ (-24) (by decide)).1,
   (claim_C6_compress_range _ (-24) (by decide)).2.1, by decide⟩

/-- C7: the Simple hash code is the sum of `char_code - 96` over the key's
characters; "cat" gives 24 and the empty string gives 0. -/
theorem claim_C7_simple_code :
    (∀ key : String, hashCodeSimple key = (key.data.map (fun c => (c.toNat : Int) - 96)).sum) ∧
    hashCodeSimple "cat" = 24 ∧ hashCodeSimple "" = 0 := by
  refine ⟨?_, by decide, by decide⟩
  intro key
  unfold hashCodeSimple
  have h := foldl_add_map (fun c : Char => (c.toNat : Int) - 96) key.data 0
  simpa using h

theorem polyLoop_eq (cs : List Char) : ∀ sum : Int,
    polyLoop cs sum ((cs.length : Int) - 1) =
      sum + ((List.range cs.length).map
        (fun i => (((cs.getD i 'a').toNat : Int) - 96) * 33 ^ (cs.length - 1 - i))).sum := by
  induction cs with
  | nil => intro sum; simp [polyLoop]
  | cons c cs ih =>
    intro sum
    have h1 : ((c :: cs).length : Int) - 1 = ((cs.length : Nat) : Int) := by
      simp [List.length_cons]
    rw [h1]
    simp only [polyLoop, Int.toNat_natCast]
    rw [ih]
    rw [List.length_cons, List.range_succ_eq_map, List.map_cons, List.map_map, List.sum_cons]
    simp only [Function.comp_def, Nat.succ_eq_add_one, List.getD_cons_zero, List.getD_cons_succ,
      Nat.add_sub_cancel, Nat.sub_zero]
    have hmap :
        List.map (fun i => (((cs.getD i 'a').toNat : Int) - 96)
            * 33 ^ (cs.length - (i + 1))) (List.range cs.length)
          = List.map (fun i => (((cs.getD i 'a').toNat : Int) - 96)
            * 33 ^ (cs.length - 1 - i)) (List.range cs.length) :=
      List.map_congr_left (fun i _ => by
        have h3 : cs.length - (i + 1) = cs.length - 1 - i := by omega
        rw [h3])
    rw [hmap]
    ring

/-- C8: the Polynomial hash code equals the exact integer value of the
base-33 polynomial with coefficients `char_code - 96`, most-significant
character first. -/
theorem claim_C8_poly_code (key : String) :
    hashCodePoly key =
      ((List.range key.length).map
        (fun i => (((key.data.getD i 'a').toNat : Int) - 96) * 33 ^ (key.length - 1 - i))).sum := by
  have h := polyLoop_eq key.data 0
  have hlen : key.length = key.data.length := rfl
  rw [hashCodePoly, hlen]
  rw [h, zero_add]

theorem printStats_eq {s : HashMap} {x : Int} {xs : List Int} (hins : s.inserts = x :: xs)
    (hn : 0 < s.n) :
    printStats s = some ⟨s.n, s.inserts.foldl (· + ·) 0,
      ((s.inserts.foldl (· + ·) 0 : Int) : ℚ) / (s.n : ℚ),
      ((List.range s.n).map (fun i => max (s.inserts.getD i 0 - 1) 0)).foldl (· + ·) 0,
      xs.foldl max x⟩ := by
  simp only [printStats, hins]
  rw [if_neg (Nat.pos_iff_ne_zero.mp hn)]

/-- C9: the statistics report sums the per-bucket insert counters, divides by
the bucket count for the load factor, sums `max(count - 1, 0)` for the
collisions, and reports the largest single counter. -/
theorem claim_C9_stats (s : HashMap) (hn : 0 < s.n) (hlen : s.inserts.length = s.n) :
    ∃ st : Stats, printStats s = some st ∧
      st.size = s.n ∧
      st.inserts = s.inserts.sum ∧
      st.loadFactor = ((s.inserts.sum : Int) : ℚ) / (s.n : ℚ) ∧
      st.collisions = (s.inserts.map (fun y => max (y - 1) 0)).sum ∧
      st.maxBucket ∈ s.inserts ∧ (∀ y ∈ s.inserts, y ≤ st.maxBucket) := by
  have hne : s.inserts ≠ [] := by
    intro h0
    rw [h0] at hlen
    simp at hlen
    omega
  obtain ⟨x, xs, hins⟩ := List.exists_cons_of_ne_nil hne
  refine ⟨_, printStats_eq hins hn, rfl, ?_, ?_, ?_, ?_, ?_⟩
  · show s.inserts.foldl (· + ·) 0 = s.inserts.sum
    rw [foldl_add_int, zero_add]
  · show ((s.inserts.foldl (· + ·) 0 : Int) : ℚ) / (s.n : ℚ)
        = ((s.inserts.sum : Int) : ℚ) / (s.n : ℚ)
    rw [foldl_add_int, zero_add]
  · show ((List.range s.n).map (fun i => max (s.inserts.getD i 0 - 1) 0)).foldl (· + ·) 0
        = (s.inserts.map (fun y => max (y - 1) 0)).sum
    rw [← hlen, range_map_getD (fun y => max (y - 1) 0) s.inserts, foldl_add_int, zero_add]
  · show xs.foldl max x ∈ s.inserts
    rw [hins]
    exact (foldl_max_spec xs x).1
  · intro y hy
    show y ≤ xs.foldl max x
    rw [hins] at hy
    obtain ⟨_, hle, hub⟩ := foldl_max_spec xs x
    rcases List.mem_cons.mp hy with rfl | hy'
    · exact hle
    · exact hub y hy'

/-- C9 witness: five buckets with per-bucket counters (1,1,3,1,1) give
7 total inserts, load factor 1.4, 2 collisions and a largest bucket of 3. -/
theorem claim_C9_witness :
    (0 < (HashMap.mk HCM.simple 5 [[], [], [], [], []] [1, 1, 3, 1, 1]).n ∧
     (HashMap.mk HCM.simple 5 [[], [], [], [], []] [1, 1, 3, 1, 1]).inserts.length
       = (HashMap.mk HCM.simple 5 [[], [], [], [], []] [1, 1, 3, 1, 1]).n) ∧
    (∃ st : Stats,
      printStats (HashMap.mk HCM.simple 5 [[], [], [], [], []] [1, 1, 3, 1, 1]) = some st ∧
      st.size = (HashMap.mk HCM.simple 5 [[], [], [], [], []] [1, 1, 3, 1, 1]).n ∧
      st.inserts = (HashMap.mk HCM.simple 5 [[], [], [], [], []] [1, 1, 3, 1, 1]).inserts.sum ∧
      st.loadFactor
        = (((HashMap.mk HCM.simple 5 [[], [], [], [], []] [1, 1, 3, 1, 1]).inserts.sum : Int) : ℚ)
          / ((HashMap.mk HCM.simple 5 [[], [], [], [], []] [1, 1, 3, 1, 1]).n : ℚ) ∧
      st.collisions = ((HashMap.mk HCM.simple 5 [[], [], [], [], []] [1, 1, 3, 1, 1]).inserts.map
        (fun y => max (y - 1) 0)).sum ∧
      st.maxBucket ∈ (HashMap.mk HCM.simple 5 [[], [], [], [], []] [1, 1, 3, 1, 1]).inserts ∧
      (∀ y ∈ (HashMap.mk HCM.simple 5 [[], [], [], [], []] [1, 1, 3, 1, 1]).inserts,
        y ≤ st.maxBucket)) ∧
    printStats (HashMap.mk HCM.simple 5 [[], [], [], [], []] [1, 1, 3, 1, 1])
      = some (Stats.mk 5 7 1.4 2 3) := by
  refine ⟨⟨by decide, by decide⟩, claim_C9_stats _ (by decide) (by decide), ?_⟩
  unfold printStats
  norm_num
  rfl

/-- C10: with a positive bucket count and a well-sized table, `find` is a
pure function that hashes to a valid bucket `b` and either returns `b`
(the key is in chain `b`) or returns the concrete integer `-1` (the key is
not in chain `b`); `-1` is the only negative value it can return. -/
theorem claim_C10_find_contract (s : HashMap) (key : String)
    (hlen : s.table.length = s.n) (hn : 0 < s.n) :
    ∃ (b : Nat) (c : List String), hash s key = some b ∧ b < s.n ∧ s.table[b]? = some c ∧
      ((find s key = some (b : Int) ∧ key ∈ c) ∨ (find s key = some (-1) ∧ key ∉ c)) ∧
      (∀ r : Int, find s key = some r → r = -1 ∨ (0 ≤ r ∧ r < (s.n : Int))) := by
  obtain ⟨b, hb, hblt⟩ := hash_some hn key
  have hblen : b < s.table.length := by omega
  have hc : s.table[b]? = some (s.table[b]) := List.getElem?_eq_getElem hblen
  refine ⟨b, s.table[b], hb, hblt, hc, ?_, ?_⟩
  · by_cases hk : key ∈ s.table[b]
    · exact Or.inl ⟨by rw [find_eq hb hc, if_pos hk], hk⟩
    · exact Or.inr ⟨by rw [find_eq hb hc, if_neg hk], hk⟩
  · intro r hr
    rw [find_eq hb hc] at hr
    by_cases hk : key ∈ s.table[b]
    · rw [if_pos hk] at hr
      have hrb : (b : Int) = r := Option.some.inj hr
      right
      omega
    · rw [if_neg hk] at hr
      exact Or.inl (Option.some.inj hr).symm

/-- C10 witness: on a one-bucket table holding "a", the contract instantiated
at the key "a". -/
theorem claim_C10_witness :
    ((HashMap.mk HCM.simple 1 [["a"]] [1]).table.length
       = (HashMap.mk HCM.simple 1 [["a"]] [1]).n ∧
     0 < (HashMap.mk HCM.simple 1 [["a"]] [1]).n) ∧
    (∃ (b : Nat) (c : List String),
      hash (HashMap.mk HCM.simple 1 [["a"]] [1]) "a" = some b ∧
      b < (HashMap.mk HCM.simple 1 [["a"]] [1]).n ∧
      (HashMap.mk HCM.simple 1 [["a"]] [1]).table[b]? = some c ∧
      ((find (HashMap.mk HCM.simple 1 [["a"]] [1]) "a" = some (b : Int) ∧ "a" ∈ c) ∨
       (find (HashMap.mk HCM.simple 1 [["a"]] [1]) "a" = some (-1) ∧ "a" ∉ c)) ∧
      (∀ r : Int, find (HashMap.mk HCM.simple 1 [["a"]] [1]) "a" = some r →
        r = -1 ∨ (0 ≤ r ∧ r < ((HashMap.mk HCM.simple 1 [["a"]] [1]).n : Int)))) :=
  ⟨⟨by decide, by decide⟩, claim_C10_find_contract _ "a" (by decide) (by decide)⟩

end SpellChecker
